import Mathlib

set_option maxRecDepth 10000

/-!
Shallow embedding of the storage core of `src/sqlite.py`: the fixed-width
record codec (`Row.serialize` / `Row.deserialize`) and the page-backed
in-memory table (`Table.row_slot`, `Table.insert_row`, `Table.select_all`,
`execute_statement`).

Modelling conventions:
* Python `bytes` / `bytearray` values are `List Nat` (each element a byte
  value `< 256` for well-formed data).
* Python `str` values are identified with their UTF-8 byte sequences
  (`List Nat`); CPython's strict UTF-8 decoder is modelled by the
  executable validator `validUtf8`, and `str.encode('utf-8')` of a valid
  string is the identity on its byte sequence.
* A Python-level exception (struct.error, UnicodeDecodeError, IndexError,
  …) is modelled by returning `none`; a normal return is `some _`.
* `struct.pack("I", x)` packs a 4-byte native-endian (little-endian)
  unsigned integer and raises unless `0 ≤ x < 2^32`; `struct.unpack('I', b)`
  raises unless `b` has exactly 4 bytes.  Endianness is consistent between
  the two, which is all the codec contract needs.
-/

namespace PySqlite

/-- `PAGE_SIZE = 4096` from the source. -/
def PAGE_SIZE : Nat := 4096

/-- `TABLE_MAX_PAGES = 100` from the source. -/
def TABLE_MAX_PAGES : Nat := 100

/-- The `ExecuteResult` enum of the source. -/
inductive ExecuteResult where
  | SUCCESS
  | TABLE_FULL
deriving DecidableEq

/-- The `StatementType` enum of the source. -/
inductive StatementType where
  | INSERT
  | SELECT
deriving DecidableEq

/-- Python slice `l[a : a + n]` on a byte string. -/
def listSlice (l : List Nat) (a n : Nat) : List Nat := (l.drop a).take n

/-- Python slice assignment `l[a : a + d.length] = d` on a bytearray
(for in-range `a`, `a + d.length ≤ l.length`). -/
def writeSlice (l : List Nat) (a : Nat) (d : List Nat) : List Nat :=
  l.take a ++ d ++ l.drop (a + d.length)

/-- Python `bytes.rstrip(b'\x00')`: remove all trailing zero bytes. -/
def rstripZeros (l : List Nat) : List Nat :=
  (l.reverse.dropWhile (fun b => b == 0)).reverse

/-- UTF-8 continuation byte: `0x80 ≤ b ≤ 0xBF`. -/
def isCont (b : Nat) : Bool := 128 ≤ b && b ≤ 191

/-- CPython's strict UTF-8 validity check (rejects overlong forms,
surrogates and code points above U+10FFFF), byte by byte. -/
def validUtf8 : List Nat → Bool
  | [] => true
  | b :: rest =>
    if b ≤ 127 then validUtf8 rest
    else if 194 ≤ b && b ≤ 223 then
      match rest with
      | c1 :: rest1 => isCont c1 && validUtf8 rest1
      | [] => false
    else if 224 ≤ b && b ≤ 239 then
      match rest with
      | c1 :: c2 :: rest2 =>
        (if b = 224 then 160 ≤ c1 && c1 ≤ 191
         else if b = 237 then 128 ≤ c1 && c1 ≤ 159
         else isCont c1) && isCont c2 && validUtf8 rest2
      | _ => false
    else if 240 ≤ b && b ≤ 244 then
      match rest with
      | c1 :: c2 :: c3 :: rest3 =>
        (if b = 240 then 144 ≤ c1 && c1 ≤ 191
         else if b = 244 then 128 ≤ c1 && c1 ≤ 143
         else isCont c1) && isCont c2 && isCont c3 && validUtf8 rest3
      | _ => false
    else false

/-- The `Row` class: `id` is a Python `int` (unbounded, possibly negative),
`username` and `email` are the UTF-8 byte sequences of the two strings. -/
structure Row where
  id : Int
  username : List Nat
  email : List Nat
deriving DecidableEq

namespace Row

def ID_SIZE : Nat := 4
def USERNAME_SIZE : Nat := 32
def EMAIL_SIZE : Nat := 255
def ROW_SIZE : Nat := ID_SIZE + USERNAME_SIZE + EMAIL_SIZE
def ID_OFFSET : Nat := 0
def USERNAME_OFFSET : Nat := ID_OFFSET + ID_SIZE
def EMAIL_OFFSET : Nat := USERNAME_OFFSET + USERNAME_SIZE

/-- The 4 little-endian bytes of `n` (for `n < 2^32`). -/
def packU32raw (n : Nat) : List Nat :=
  [n % 256, n / 256 % 256, n / 65536 % 256, n / 16777216 % 256]

/-- `struct.pack("I", i)`: raises (`none`) unless `0 ≤ i < 2^32`. -/
def packU32 (i : Int) : Option (List Nat) :=
  if 0 ≤ i ∧ i < 4294967296 then some (packU32raw i.toNat) else none

/-- `struct.unpack('I', b)[0]`: raises (`none`) unless `b` has exactly 4
bytes. -/
def unpackU32 (b : List Nat) : Option Int :=
  if b.length = 4 then
    some ((b.getD 0 0 + 256 * b.getD 1 0 + 65536 * b.getD 2 0 +
      16777216 * b.getD 3 0 : Nat) : Int)
  else none

/-- `s.encode('utf-8')[:w].ljust(w, b'\x00')`: truncate the byte string to
`w` bytes, then pad on the right with zero bytes to exactly `w`. -/
def padTrunc (s : List Nat) (w : Nat) : List Nat :=
  s.take w ++ List.replicate (w - (s.take w).length) 0

/-- The byte string `Row.serialize` builds when `struct.pack` succeeds. -/
def serializeRaw (r : Row) : List Nat :=
  packU32raw r.id.toNat ++ padTrunc r.username USERNAME_SIZE ++
    padTrunc r.email EMAIL_SIZE

/-- `Row.serialize`: pack the id (may raise), truncate/pad the two text
fields, concatenate. -/
def serialize (r : Row) : Option (List Nat) :=
  (packU32 r.id).map fun packed_id =>
    packed_id ++ padTrunc r.username USERNAME_SIZE ++ padTrunc r.email EMAIL_SIZE

/-- Python `bytes.decode('utf-8')` (strict): the identity on valid UTF-8,
raises (`none`) otherwise. -/
def decodeUtf8 (l : List Nat) : Option (List Nat) :=
  if validUtf8 l then some l else none

/-- `Row.deserialize`: unpack the 4-byte id, then strip trailing zero bytes
off each fixed-width text field and UTF-8-decode it (which may raise). -/
def deserialize (data : List Nat) : Option Row :=
  match unpackU32 (listSlice data ID_OFFSET ID_SIZE),
      decodeUtf8 (rstripZeros (listSlice data USERNAME_OFFSET USERNAME_SIZE)),
      decodeUtf8 (rstripZeros (listSlice data EMAIL_OFFSET EMAIL_SIZE)) with
  | some id_val, some username, some email => some ⟨id_val, username, email⟩
  | _, _, _ => none

end Row

/-- The `Table` class: a row count and `TABLE_MAX_PAGES` page slots, each
`none` (Python `None`) or a page buffer. -/
structure Table where
  num_rows : Nat
  pages : List (Option (List Nat))
deriving DecidableEq

namespace Table

def ROWS_PER_PAGE : Nat := PAGE_SIZE / Row.ROW_SIZE
def TABLE_MAX_ROWS : Nat := TABLE_MAX_PAGES * ROWS_PER_PAGE

/-- `Table.__init__`: zero rows, all page slots `None`. -/
def empty : Table := ⟨0, List.replicate TABLE_MAX_PAGES none⟩

/-- `Table.row_slot`: compute `(page_num, byte_offset)` for a row index,
allocating a zero-filled page if the slot is `None`.  Indexing past the
page array raises (`none`); the possibly-updated table is returned
alongside the address. -/
def row_slot (t : Table) (row_num : Nat) : Option (Table × Nat × Nat) :=
  match t.pages[row_num / ROWS_PER_PAGE]? with
  | none => none
  | some none =>
    some (⟨t.num_rows, t.pages.set (row_num / ROWS_PER_PAGE)
        (some (List.replicate PAGE_SIZE 0))⟩,
      row_num / ROWS_PER_PAGE, row_num % ROWS_PER_PAGE * Row.ROW_SIZE)
  | some (some _) =>
    some (t, row_num / ROWS_PER_PAGE, row_num % ROWS_PER_PAGE * Row.ROW_SIZE)

/-- `Table.insert_row`: address the slot for `num_rows`, serialize the row
(may raise), write the bytes into the page, increment `num_rows`. -/
def insert_row (t : Table) (r : Row) : Option Table :=
  match t.row_slot t.num_rows with
  | none => none
  | some (t1, page_num, byte_offset) =>
    match r.serialize with
    | none => none
    | some serialized =>
      match t1.pages[page_num]? with
      | some (some page) =>
        some ⟨t1.num_rows + 1,
          t1.pages.set page_num (some (writeSlice page byte_offset serialized))⟩
      | _ => none

/-- The loop body of `Table.select_all` over a list of row indices,
threading the table state through `row_slot`. -/
def select_allAux (t : Table) : List Nat → Option (Table × List Row)
  | [] => some (t, [])
  | i :: rest =>
    match t.row_slot i with
    | none => none
    | some (t1, page_num, byte_offset) =>
      match t1.pages[page_num]? with
      | some (some page) =>
        match Row.deserialize (listSlice page byte_offset Row.ROW_SIZE) with
        | none => none
        | some r => (select_allAux t1 rest).map fun p => (p.1, r :: p.2)
      | _ => none

/-- `Table.select_all`: read and decode rows `0 .. num_rows - 1` in order. -/
def select_all (t : Table) : Option (Table × List Row) :=
  select_allAux t (List.range t.num_rows)

end Table

/-- The `Statement` class (only the fields `execute_statement` reads). -/
structure Statement where
  type : StatementType
  row_to_insert : Option Row

/-- `execute_statement`: for INSERT, check capacity then insert (passing a
missing row to `insert_row` would raise); for SELECT, scan all rows
(printing is ignored). -/
def execute_statement (statement : Statement) (table : Table) :
    Option (Table × ExecuteResult) :=
  match statement.type with
  | .INSERT =>
    if table.num_rows ≥ Table.TABLE_MAX_ROWS then some (table, .TABLE_FULL)
    else
      match statement.row_to_insert with
      | none => none
      | some r => (table.insert_row r).map fun t' => (t', .SUCCESS)
  | .SELECT => table.select_all.map fun p => (p.1, .SUCCESS)

/-- Shorthand: `execute_statement` on an INSERT statement carrying `r`,
exactly as the command layer builds it. -/
def executeInsert (t : Table) (r : Row) : Option (Table × ExecuteResult) :=
  execute_statement ⟨.INSERT, some r⟩ t

/-- Shorthand: `execute_statement` on a SELECT statement, exactly as the
command layer builds it. -/
def executeSelect (t : Table) : Option (Table × ExecuteResult) :=
  execute_statement ⟨.SELECT, none⟩ t

/-- Running a list of INSERT statements in order, stopping (`none`) if any
raises; returns the final table and the list of results. -/
def runInserts (t : Table) : List Row → Option (Table × List ExecuteResult)
  | [] => some (t, [])
  | r :: rest =>
    match executeInsert t r with
    | none => none
    | some (t', res) => (runInserts t' rest).map fun p => (p.1, res :: p.2)

/-- The id precondition under which `struct.pack("I", ·)` succeeds. -/
def idInRange (r : Row) : Prop := 0 ≤ r.id ∧ r.id < 4294967296

instance (r : Row) : Decidable (idInRange r) := by unfold idInRange; infer_instance

namespace Row

theorem length_packU32raw (n : Nat) : (packU32raw n).length = 4 := rfl

theorem unpackU32_packU32raw (n : Nat) (h : n < 4294967296) :
    unpackU32 (packU32raw n) = some (n : Int) := by
  have hsum : n % 256 + 256 * (n / 256 % 256) + 65536 * (n / 65536 % 256) +
      16777216 * (n / 16777216 % 256) = n := by omega
  have hred : unpackU32 (packU32raw n) = some ((n % 256 + 256 * (n / 256 % 256) +
      65536 * (n / 65536 % 256) + 16777216 * (n / 16777216 % 256) : Nat) : Int) := rfl
  rw [hred, hsum]

theorem length_padTrunc (s : List Nat) (w : Nat) : (padTrunc s w).length = w := by
  simp only [padTrunc, List.length_append, List.length_take, List.length_replicate]
  omega

theorem padTrunc_of_le (s : List Nat) (w : Nat) (h : s.length ≤ w) :
    padTrunc s w = s ++ List.replicate (w - s.length) 0 := by
  simp [padTrunc, List.take_of_length_le h]

theorem padTrunc_of_ge (s : List Nat) (w : Nat) (h : w ≤ s.length) :
    padTrunc s w = s.take w := by
  have hl : (s.take w).length = w := by simp [List.length_take]; omega
  simp [padTrunc, hl]

theorem length_serializeRaw (r : Row) : (serializeRaw r).length = ROW_SIZE := by
  simp [serializeRaw, List.length_append, length_packU32raw, length_padTrunc,
    ROW_SIZE, ID_SIZE, USERNAME_SIZE, EMAIL_SIZE]

theorem serialize_eq_raw (r : Row) (h : idInRange r) :
    serialize r = some (serializeRaw r) := by
  obtain ⟨h0, h1⟩ := h
  simp [serialize, packU32, serializeRaw, h0, h1]

theorem serialize_eq_none (r : Row) (h : ¬ idInRange r) : serialize r = none := by
  simp only [serialize, packU32, idInRange] at *
  rw [if_neg h]
  rfl

end Row

theorem listSlice_prefix (B C : List Nat) {n : Nat} (hB : B.length = n) :
    listSlice (B ++ C) 0 n = B := by
  subst hB
  unfold listSlice
  rw [List.drop_zero, List.take_left]

theorem listSlice_mid (A B C : List Nat) {a n : Nat} (hA : A.length = a)
    (hB : B.length = n) : listSlice (A ++ B ++ C) a n = B := by
  subst hA; subst hB
  unfold listSlice
  rw [List.append_assoc, List.drop_left, List.take_left]

theorem listSlice_suffix (A B : List Nat) {a n : Nat} (hA : A.length = a)
    (hB : B.length = n) : listSlice (A ++ B) a n = B := by
  subst hA; subst hB
  unfold listSlice
  rw [List.drop_left, List.take_of_length_le le_rfl]

namespace Row

theorem listSlice_serializeRaw_id (r : Row) :
    listSlice (serializeRaw r) ID_OFFSET ID_SIZE = packU32raw r.id.toNat := by
  show listSlice (packU32raw r.id.toNat ++ padTrunc r.username USERNAME_SIZE ++
    padTrunc r.email EMAIL_SIZE) ID_OFFSET ID_SIZE = _
  rw [List.append_assoc]
  exact listSlice_prefix _ _ rfl

theorem listSlice_serializeRaw_username (r : Row) :
    listSlice (serializeRaw r) USERNAME_OFFSET USERNAME_SIZE =
      padTrunc r.username USERNAME_SIZE :=
  listSlice_mid _ _ _ rfl (length_padTrunc ..)

theorem listSlice_serializeRaw_email (r : Row) :
    listSlice (serializeRaw r) EMAIL_OFFSET EMAIL_SIZE = padTrunc r.email EMAIL_SIZE :=
  listSlice_suffix (packU32raw r.id.toNat ++ padTrunc r.username USERNAME_SIZE) _
    (by rw [List.length_append, length_packU32raw, length_padTrunc]; decide)
    (length_padTrunc ..)

end Row

theorem dropWhile_zeros_replicate (k : Nat) (y : List Nat) :
    (List.replicate k 0 ++ y).dropWhile (fun b => b == 0) =
      y.dropWhile (fun b => b == 0) := by
  induction k with
  | zero => rfl
  | succ m ih => rw [List.replicate_succ, List.cons_append, List.dropWhile_cons]; simp [ih]

theorem rstripZeros_append_replicate (x : List Nat) (k : Nat) :
    rstripZeros (x ++ List.replicate k 0) = rstripZeros x := by
  unfold rstripZeros
  rw [List.reverse_append, List.reverse_replicate, dropWhile_zeros_replicate]

theorem rstripZeros_of_ne_zero (x : List Nat) (h : ∀ b ∈ x, b ≠ 0) :
    rstripZeros x = x := by
  unfold rstripZeros
  rcases hx : x.reverse with _ | ⟨b, rest⟩
  · have : x = [] := by
      have := congrArg List.reverse hx
      rwa [List.reverse_reverse] at this
    simp [this]
  · have hb : b ∈ x := by
      rw [← List.mem_reverse, hx]
      exact List.mem_cons_self b rest
    have hb0 : (b == 0) = false := by
      simp only [beq_eq_false_iff_ne]
      exact h b hb
    rw [List.dropWhile_cons, hb0]
    simp only [Bool.false_eq_true, if_false]
    rw [← hx, List.reverse_reverse]

theorem rstripZeros_padTrunc (s : List Nat) (w : Nat) :
    rstripZeros (Row.padTrunc s w) = rstripZeros (s.take w) := by
  unfold Row.padTrunc
  exact rstripZeros_append_replicate ..

/-- Decoding the bytes `serializeRaw` lays down: the id round-trips, and each
text field comes back as its truncation with trailing zero bytes stripped,
provided both stripped fields are valid UTF-8 (otherwise `decode` raises). -/
theorem deserialize_serializeRaw (r : Row) (h : idInRange r)
    (hu : validUtf8 (rstripZeros (r.username.take Row.USERNAME_SIZE)))
    (he : validUtf8 (rstripZeros (r.email.take Row.EMAIL_SIZE))) :
    Row.deserialize (Row.serializeRaw r) =
      some ⟨r.id, rstripZeros (r.username.take Row.USERNAME_SIZE),
        rstripZeros (r.email.take Row.EMAIL_SIZE)⟩ := by
  obtain ⟨h0, h1⟩ := h
  have hn : r.id.toNat < 4294967296 := by omega
  unfold Row.deserialize
  rw [Row.listSlice_serializeRaw_id, Row.listSlice_serializeRaw_username,
    Row.listSlice_serializeRaw_email, Row.unpackU32_packU32raw _ hn,
    Int.toNat_of_nonneg h0, rstripZeros_padTrunc, rstripZeros_padTrunc]
  unfold Row.decodeUtf8
  rw [if_pos hu, if_pos he]

/-- Serializing then deserializing a raisable-free record whose text fields
fit their widths and contain no zero byte gives the record back. -/
theorem deserialize_serializeRaw_roundtrip (r : Row) (h : idInRange r)
    (hul : r.username.length ≤ Row.USERNAME_SIZE)
    (hel : r.email.length ≤ Row.EMAIL_SIZE)
    (huz : ∀ b ∈ r.username, b ≠ 0) (hez : ∀ b ∈ r.email, b ≠ 0)
    (huv : validUtf8 r.username) (hev : validUtf8 r.email) :
    Row.deserialize (Row.serializeRaw r) = some r := by
  have hu : r.username.take Row.USERNAME_SIZE = r.username := List.take_of_length_le hul
  have he : r.email.take Row.EMAIL_SIZE = r.email := List.take_of_length_le hel
  have hu' : rstripZeros (r.username.take Row.USERNAME_SIZE) = r.username := by
    rw [hu]; exact rstripZeros_of_ne_zero _ huz
  have he' : rstripZeros (r.email.take Row.EMAIL_SIZE) = r.email := by
    rw [he]; exact rstripZeros_of_ne_zero _ hez
  rw [deserialize_serializeRaw r h (by rw [hu']; exact huv) (by rw [he']; exact hev),
    hu', he']

theorem length_writeSlice (l d : List Nat) (a : Nat) (h : a + d.length ≤ l.length) :
    (writeSlice l a d).length = l.length := by
  simp only [writeSlice, List.length_append, List.length_take, List.length_drop]
  omega

theorem listSlice_writeSlice_self (l d : List Nat) (a : Nat)
    (h : a + d.length ≤ l.length) : listSlice (writeSlice l a d) a d.length = d := by
  have hta : (l.take a).length = a := by simp [List.length_take]; omega
  unfold writeSlice listSlice
  rw [List.append_assoc]
  have key : ∀ A B : List Nat, A.length = a →
      List.take d.length (List.drop a (A ++ (d ++ B))) = d := by
    intro A B hA
    rw [← hA, List.drop_left, List.take_left]
  exact key _ _ hta

theorem listSlice_writeSlice_before (l d : List Nat) (a a2 n : Nat)
    (ha : a ≤ l.length) (h : a2 + n ≤ a) :
    listSlice (writeSlice l a d) a2 n = listSlice l a2 n := by
  have hta : (l.take a).length = a := by simp [List.length_take]; omega
  unfold writeSlice listSlice
  rw [List.append_assoc, List.drop_append_of_le_length (by rw [hta]; omega),
    List.take_append_of_le_length (by rw [List.length_drop, hta]; omega),
    List.drop_take, List.take_take]
  congr 1
  omega

theorem listSlice_writeSlice_after (l d : List Nat) (a a2 n : Nat)
    (ha : a ≤ l.length) (h : a + d.length ≤ a2) :
    listSlice (writeSlice l a d) a2 n = listSlice l a2 n := by
  have hta : (l.take a).length = a := by simp [List.length_take]; omega
  unfold writeSlice listSlice
  have key : ∀ A B : List Nat, A.length = a + d.length → B = l.drop (a + d.length) →
      List.take n (List.drop a2 (A ++ B)) = List.take n (List.drop a2 l) := by
    intro A B hA hB
    obtain ⟨k, hk⟩ : ∃ k, a2 = a + d.length + k := ⟨a2 - (a + d.length), by omega⟩
    subst hk
    rw [← hA, List.drop_append, hB, List.drop_drop, hA]
  exact key _ _ (by rw [List.length_append, hta]) rfl

/-- The `ROW_SIZE = 291` bytes stored at logical row index `i` (when the
page holding that slot is present); `14 = ROWS_PER_PAGE`. -/
def slotBytes (t : Table) (i : Nat) : Option (List Nat) :=
  match t.pages[i / 14]? with
  | some (some page) => some (listSlice page (i % 14 * 291) 291)
  | _ => none

/-- The state invariant relating a table to the list `rs` of rows
successfully inserted into it, in order.  Stated with the literal values
`14 = ROWS_PER_PAGE`, `100 = TABLE_MAX_PAGES`, `1400 = TABLE_MAX_ROWS`,
`4096 = PAGE_SIZE` (all definitionally equal to the named constants). -/
structure Inv (rs : List Row) (t : Table) : Prop where
  nr : t.num_rows = rs.length
  plen : t.pages.length = 100
  cap : rs.length ≤ 1400
  ids : ∀ r ∈ rs, idInRange r
  alloc : ∀ p : Nat, p * 14 < t.num_rows →
    ∃ pg, t.pages[p]? = some (some pg) ∧ pg.length = 4096
  unalloc : ∀ p : Nat, p < 100 → t.num_rows ≤ p * 14 → t.pages[p]? = some none
  content : ∀ i r, rs[i]? = some r → slotBytes t i = some (Row.serializeRaw r)

/-- States of the program: reached from the initial empty table by the
operations the command layer can perform (insert, which may hit capacity,
and select). -/
inductive Reaches : List Row → Table → Prop where
  | empty : Reaches [] Table.empty
  | insert_ok {rs t r t'} : Reaches rs t →
      executeInsert t r = some (t', .SUCCESS) → Reaches (rs ++ [r]) t'
  | insert_full {rs t r t'} : Reaches rs t →
      executeInsert t r = some (t', .TABLE_FULL) → Reaches rs t'
  | select {rs t t' res} : Reaches rs t →
      executeSelect t = some (t', res) → Reaches rs t'

theorem inv_empty : Inv [] Table.empty := by
  refine ⟨rfl, List.length_replicate .., by decide, by simp, ?_, ?_, ?_⟩
  · intro p hp
    simp [Table.empty] at hp
  · intro p hp _
    show (List.replicate 100 none)[p]? = some none
    rw [List.getElem?_replicate, if_pos hp]
  · intro i r h
    simp at h

theorem row_slot_present (t : Table) (i : Nat) (pg : List Nat)
    (hpage : t.pages[i / 14]? = some (some pg)) :
    t.row_slot i = some (t, i / 14, i % 14 * 291) := by
  unfold Table.row_slot
  rw [(id hpage : t.pages[i / Table.ROWS_PER_PAGE]? = some (some pg))]
  rfl

theorem row_slot_fresh (t : Table) (i : Nat)
    (hpage : t.pages[i / 14]? = some none) :
    t.row_slot i = some
      (⟨t.num_rows, t.pages.set (i / 14) (some (List.replicate 4096 0))⟩,
       i / 14, i % 14 * 291) := by
  unfold Table.row_slot
  rw [(id hpage : t.pages[i / Table.ROWS_PER_PAGE]? = some none)]
  rfl

theorem row_slot_oob (t : Table) (i : Nat)
    (hpage : t.pages[i / 14]? = none) :
    t.row_slot i = none := by
  unfold Table.row_slot
  rw [(id hpage : t.pages[i / Table.ROWS_PER_PAGE]? = none)]

theorem inv_row_slot_lt {rs : List Row} {t : Table} (hInv : Inv rs t) (i : Nat)
    (hi : i < t.num_rows) :
    t.row_slot i = some (t, i / 14, i % 14 * 291) := by
  obtain ⟨pg, hpg, -⟩ := hInv.alloc (i / 14)
    (lt_of_le_of_lt (Nat.div_mul_le_self i _) hi)
  exact row_slot_present t i pg hpg

theorem slotBytes_of_page {t : Table} {i : Nat} {pg : List Nat}
    (h : t.pages[i / 14]? = some (some pg)) :
    slotBytes t i = some (listSlice pg (i % 14 * 291) 291) := by
  unfold slotBytes
  rw [h]

theorem slotBytes_some {t : Table} {i : Nat} {bs : List Nat}
    (h : slotBytes t i = some bs) :
    ∃ pg, t.pages[i / 14]? = some (some pg) ∧
      bs = listSlice pg (i % 14 * 291) 291 := by
  unfold slotBytes at h
  rcases hq : t.pages[i / 14]? with _ | sl
  · rw [hq] at h
    exact absurd h (by simp)
  · rcases sl with _ | pg
    · rw [hq] at h
      exact absurd h (by simp)
    · rw [hq] at h
      injection h with h'
      exact ⟨pg, rfl, h'.symm⟩

theorem slotBytes_congr {t t' : Table} {i : Nat}
    (h : t'.pages[i / 14]? = t.pages[i / 14]?) :
    slotBytes t' i = slotBytes t i := by
  unfold slotBytes
  rw [h]

/-- Writing the new row's bytes into the slot for index `rs.length` of a
page `base` that already holds the rows of `rs` addressed to that page
preserves the invariant. -/
theorem inv_insert_upd {rs : List Row} {t : Table} (hInv : Inv rs t)
    (hcap : rs.length < 1400) {r : Row} (hr : idInRange r)
    (base : List Nat) (hblen : base.length = 4096)
    (hbase : ∀ i r', rs[i]? = some r' → i / 14 = rs.length / 14 →
      listSlice base (i % 14 * 291) 291 = Row.serializeRaw r') :
    Inv (rs ++ [r])
      ⟨rs.length + 1, t.pages.set (rs.length / 14)
        (some (writeSlice base (rs.length % 14 * 291) (Row.serializeRaw r)))⟩ := by
  have hplen : t.pages.length = 100 := hInv.plen
  have hserl : (Row.serializeRaw r).length = 291 := Row.length_serializeRaw r
  have hp100 : rs.length / 14 < 100 := by omega
  have hset100 : rs.length / 14 < t.pages.length := by omega
  have hoffle : rs.length % 14 * 291 + (Row.serializeRaw r).length ≤ base.length := by
    have hm : rs.length % 14 < 14 := Nat.mod_lt _ (by norm_num)
    omega
  refine ⟨by simp, ?_, ?_, ?_, ?_, ?_, ?_⟩
  · show (t.pages.set (rs.length / 14) _).length = 100
    rw [List.length_set]
    exact hplen
  · show (rs ++ [r]).length ≤ 1400
    rw [List.length_append]
    simp only [List.length_singleton]
    omega
  · intro x hx
    rcases List.mem_append.1 hx with h | h
    · exact hInv.ids x h
    · rw [List.mem_singleton] at h
      subst h
      exact hr
  · -- alloc
    intro q hq
    have hq' : q * 14 < rs.length + 1 := hq
    by_cases hqp : q = rs.length / 14
    · subst hqp
      show ∃ pg, (t.pages.set (rs.length / 14)
        (some (writeSlice base (rs.length % 14 * 291) (Row.serializeRaw r))))[rs.length / 14]? =
          some (some pg) ∧ pg.length = 4096
      rw [List.getElem?_set_self hset100]
      exact ⟨_, rfl, by rw [length_writeSlice _ _ _ hoffle]; exact hblen⟩
    · show ∃ pg, (t.pages.set (rs.length / 14) _)[q]? = some (some pg) ∧ pg.length = 4096
      rw [List.getElem?_set_ne (fun h => hqp h.symm)]
      apply hInv.alloc
      have hnr : t.num_rows = rs.length := hInv.nr
      omega
  · -- unalloc
    intro q hq100 hqle
    have hqle' : rs.length + 1 ≤ q * 14 := hqle
    have hqp : ¬ q = rs.length / 14 := by omega
    show (t.pages.set (rs.length / 14) _)[q]? = some none
    rw [List.getElem?_set_ne (fun h => hqp h.symm)]
    apply hInv.unalloc q hq100
    have hnr : t.num_rows = rs.length := hInv.nr
    omega
  · -- content
    intro i r' hir'
    by_cases hin : i < rs.length
    · have hold : rs[i]? = some r' := by
        rw [List.getElem?_append, if_pos hin] at hir'
        exact hir'
      have hcont := hInv.content i r' hold
      obtain ⟨pgo, hpgo, hsl⟩ := slotBytes_some hcont
      by_cases hqp : i / 14 = rs.length / 14
      · -- row i already lives on the page being written; use `hbase`
        have hbs := hbase i r' hold hqp
        have hpage : (⟨rs.length + 1, t.pages.set (rs.length / 14)
            (some (writeSlice base (rs.length % 14 * 291) (Row.serializeRaw r)))⟩ :
            Table).pages[i / 14]? =
            some (some (writeSlice base (rs.length % 14 * 291) (Row.serializeRaw r))) := by
          show (t.pages.set (rs.length / 14) _)[i / 14]? = _
          rw [hqp, List.getElem?_set_self hset100]
        rw [slotBytes_of_page hpage]
        have hdivs : 14 * (i / 14) + i % 14 = i := Nat.div_add_mod i 14
        have hdivn : 14 * (rs.length / 14) + rs.length % 14 = rs.length :=
          Nat.div_add_mod rs.length 14
        have hine : i ≠ rs.length := by omega
        have hmodne : i % 14 ≠ rs.length % 14 := by omega
        rcases Nat.lt_or_ge (i % 14) (rs.length % 14) with hlt | hge
        · rw [listSlice_writeSlice_before base (Row.serializeRaw r)
            (rs.length % 14 * 291) (i % 14 * 291) 291 (by omega) (by omega), hbs]
        · rw [listSlice_writeSlice_after base (Row.serializeRaw r)
            (rs.length % 14 * 291) (i % 14 * 291) 291 (by omega) (by omega), hbs]
      · -- row i lives on an untouched page
        rw [slotBytes_congr (show (t.pages.set (rs.length / 14) _)[i / 14]? =
          t.pages[i / 14]? from List.getElem?_set_ne (fun h => hqp h.symm))]
        exact hcont
    · -- the freshly inserted row at index `rs.length`
      have hlen2 : i < rs.length + 1 := by
        have := (List.getElem?_eq_some.1 hir').1
        rw [List.length_append, List.length_singleton] at this
        omega
      have hieq : i = rs.length := by omega
      subst hieq
      have hreq : r' = r := by
        rw [List.getElem?_concat_length] at hir'
        injection hir' with h
        exact h.symm
      subst hreq
      have hpage : (⟨rs.length + 1, t.pages.set (rs.length / 14)
          (some (writeSlice base (rs.length % 14 * 291) (Row.serializeRaw r')))⟩ :
          Table).pages[rs.length / 14]? =
          some (some (writeSlice base (rs.length % 14 * 291) (Row.serializeRaw r'))) := by
        show (t.pages.set (rs.length / 14) _)[rs.length / 14]? = _
        rw [List.getElem?_set_self hset100]
      rw [slotBytes_of_page hpage]
      have hself := listSlice_writeSlice_self base (Row.serializeRaw r')
        (rs.length % 14 * 291) (by omega)
      rw [hserl] at hself
      rw [hself]

/-- A successful `insert_row` under the invariant: for an in-range id and
remaining capacity it returns the updated table and preserves the
invariant extended with the new row. -/
theorem insert_row_spec {rs : List Row} {t : Table} (hInv : Inv rs t)
    (hcap : rs.length < 1400) {r : Row} (hr : idInRange r) :
    ∃ t', Table.insert_row t r = some t' ∧ Inv (rs ++ [r]) t' := by
  have hnr : t.num_rows = rs.length := hInv.nr
  have hplen : t.pages.length = 100 := hInv.plen
  have hset100 : rs.length / 14 < t.pages.length := by omega
  by_cases hal : rs.length / 14 * 14 < rs.length
  · -- the page for the new slot is already allocated
    obtain ⟨pg, hpg, hpglen⟩ := hInv.alloc (rs.length / 14) (by omega)
    refine ⟨⟨rs.length + 1, t.pages.set (rs.length / 14)
      (some (writeSlice pg (rs.length % 14 * 291) (Row.serializeRaw r)))⟩, ?_, ?_⟩
    · unfold Table.insert_row
      rw [hnr, row_slot_present t rs.length pg hpg]
      simp only [Row.serialize_eq_raw r hr, hpg, hnr]
    · exact inv_insert_upd hInv hcap hr pg hpglen (fun i r' hold hdiv => by
        obtain ⟨pgo, hpgo, hsl⟩ := slotBytes_some (hInv.content i r' hold)
        rw [hdiv] at hpgo
        rw [hpg] at hpgo
        injection hpgo with hpgo'
        injection hpgo' with hpgo''
        rw [hpgo'']
        exact hsl.symm)
  · -- the page for the new slot is freshly allocated
    have heq : rs.length / 14 * 14 = rs.length := by
      have := Nat.div_mul_le_self rs.length 14
      omega
    have hun : t.pages[rs.length / 14]? = some none := by
      apply hInv.unalloc _ (by omega)
      omega
    refine ⟨⟨rs.length + 1, t.pages.set (rs.length / 14)
      (some (writeSlice (List.replicate 4096 0) (rs.length % 14 * 291)
        (Row.serializeRaw r)))⟩, ?_, ?_⟩
    · unfold Table.insert_row
      rw [hnr, row_slot_fresh t rs.length hun]
      simp only [Row.serialize_eq_raw r hr,
        List.getElem?_set_self hset100, List.set_set, hnr]
    · exact inv_insert_upd hInv hcap hr (List.replicate 4096 0)
        (List.length_replicate ..) (fun i r' hold hdiv => by
          exfalso
          have hlt : i < rs.length := by
            have := (List.getElem?_eq_some.1 hold).1
            omega
          have hge : i / 14 * 14 ≤ i := Nat.div_mul_le_self i 14
          rw [hdiv] at hge
          omega)

/-- The pure read of one logical row: the stored slot bytes, deserialized
(`none` models the UnicodeDecodeError `deserialize` can raise). -/
def readRow (t : Table) (i : Nat) : Option Row :=
  (slotBytes t i).bind Row.deserialize

/-- Reading a list of row indices in order; `none` as soon as one read
raises. -/
def readRows (t : Table) : List Nat → Option (List Row)
  | [] => some []
  | i :: rest =>
    match readRow t i with
    | none => none
    | some r => (readRows t rest).map (r :: ·)

theorem readRows_length {t : Table} {l : List Nat} {rows : List Row}
    (h : readRows t l = some rows) : rows.length = l.length := by
  induction l generalizing rows with
  | nil =>
    unfold readRows at h
    injection h with h
    subst h
    rfl
  | cons i rest ih =>
    unfold readRows at h
    cases hr : readRow t i with
    | none => rw [hr] at h; exact absurd h (by simp)
    | some r =>
      rw [hr] at h
      cases hrr : readRows t rest with
      | none => rw [hrr] at h; exact absurd h (by simp)
      | some rest' =>
        rw [hrr] at h
        injection h with h
        subst h
        simp [List.length_cons, ih hrr]

theorem readRows_get {t : Table} {l : List Nat} {rows : List Row}
    (h : readRows t l = some rows) :
    ∀ (k i : Nat), l[k]? = some i → rows[k]? = readRow t i := by
  induction l generalizing rows with
  | nil => intro k i hk; simp at hk
  | cons j rest ih =>
    intro k i hk
    unfold readRows at h
    cases hr : readRow t j with
    | none => rw [hr] at h; exact absurd h (by simp)
    | some r =>
      rw [hr] at h
      cases hrr : readRows t rest with
      | none => rw [hrr] at h; exact absurd h (by simp)
      | some rest' =>
        rw [hrr] at h
        injection h with h
        subst h
        cases k with
        | zero =>
          simp only [List.getElem?_cons_zero] at hk ⊢
          injection hk with hk
          subst hk
          exact hr.symm
        | succ k' =>
          simp only [List.getElem?_cons_succ] at hk ⊢
          exact ih hrr k' i hk

theorem readRows_isSome {t : Table} (l : List Nat)
    (h : ∀ i ∈ l, (readRow t i).isSome) : (readRows t l).isSome := by
  induction l with
  | nil => simp [readRows]
  | cons i rest ih =>
    unfold readRows
    cases hr : readRow t i with
    | none =>
      have := h i (List.mem_cons_self ..)
      rw [hr] at this
      exact absurd this (by simp)
    | some r =>
      have hrest := ih (fun j hj => h j (List.mem_cons_of_mem _ hj))
      cases hrr : readRows t rest with
      | none => rw [hrr] at hrest; exact absurd hrest (by simp)
      | some rest' => simp

theorem select_allAux_spec {rs : List Row} {t : Table} (hInv : Inv rs t)
    (l : List Nat) (hl : ∀ i ∈ l, i < t.num_rows) :
    Table.select_allAux t l = (readRows t l).map fun rows => (t, rows) := by
  induction l with
  | nil => rfl
  | cons i rest ih =>
    have hi : i < t.num_rows := hl i (List.mem_cons_self ..)
    obtain ⟨pg, hpg, -⟩ := hInv.alloc (i / 14)
      (lt_of_le_of_lt (Nat.div_mul_le_self i _) hi)
    have hslot := slotBytes_of_page hpg
    unfold Table.select_allAux readRows
    rw [inv_row_slot_lt hInv i hi]
    show (match t.pages[i / 14]? with
      | some (some page) =>
        match Row.deserialize (listSlice page (i % 14 * 291) 291) with
        | none => none
        | some r => (Table.select_allAux t rest).map
            fun p : Table × List Row => (p.1, r :: p.2)
      | _ => none) = _
    rw [hpg]
    show (match Row.deserialize (listSlice pg (i % 14 * 291) 291) with
      | none => none
      | some r => (Table.select_allAux t rest).map
          fun p : Table × List Row => (p.1, r :: p.2)) = _
    have hread : readRow t i = Row.deserialize (listSlice pg (i % 14 * 291) 291) := by
      unfold readRow
      rw [hslot]
      rfl
    rw [← hread]
    cases hr : readRow t i with
    | none => rfl
    | some r =>
      rw [ih (fun j hj => hl j (List.mem_cons_of_mem _ hj))]
      cases hrr : readRows t rest <;> rfl

theorem select_all_spec {rs : List Row} {t : Table} (hInv : Inv rs t) :
    Table.select_all t = (readRows t (List.range t.num_rows)).map fun rows => (t, rows) := by
  unfold Table.select_all
  exact select_allAux_spec hInv _ (fun i hi => List.mem_range.1 hi)

/-- When a scan returns, it returns the table unchanged. -/
theorem select_all_frame {rs : List Row} {t : Table} {p : Table × List Row}
    (hInv : Inv rs t) (h : Table.select_all t = some p) : p.1 = t := by
  rw [select_all_spec hInv] at h
  cases hrr : readRows t (List.range t.num_rows) with
  | none => rw [hrr] at h; exact absurd h (by simp)
  | some rows =>
    rw [hrr] at h
    injection h with h
    subst h
    rfl

theorem insert_row_idInRange {t : Table} {r : Row} {t' : Table}
    (h : Table.insert_row t r = some t') : idInRange r := by
  by_contra hn
  unfold Table.insert_row at h
  rw [Row.serialize_eq_none r hn] at h
  rcases hrs : t.row_slot t.num_rows with _ | ⟨t1, pn, off⟩ <;> rw [hrs] at h <;>
    exact absurd h (by simp)

/-- The guard in `execute_statement` branches exactly on capacity. -/
theorem executeInsert_full {t : Table} {r : Row} (h : t.num_rows ≥ 1400) :
    executeInsert t r = some (t, .TABLE_FULL) := by
  unfold executeInsert execute_statement
  dsimp only
  rw [if_pos (id h : t.num_rows ≥ Table.TABLE_MAX_ROWS)]

theorem executeInsert_not_full {t : Table} {r : Row} (h : ¬ t.num_rows ≥ 1400) :
    executeInsert t r = (t.insert_row r).map fun t' => (t', .SUCCESS) := by
  unfold executeInsert execute_statement
  dsimp only
  rw [if_neg (id h : ¬ t.num_rows ≥ Table.TABLE_MAX_ROWS)]

/-- Every reachable state satisfies the invariant. -/
theorem reaches_inv {rs : List Row} {t : Table} (h : Reaches rs t) : Inv rs t := by
  induction h with
  | empty => exact inv_empty
  | @insert_ok rs t r t' _ heq ih =>
    by_cases hfull : t.num_rows ≥ 1400
    · rw [executeInsert_full hfull] at heq
      injection heq with heq
      injection heq with _ habs
      exact absurd habs (by simp)
    · rw [executeInsert_not_full hfull] at heq
      cases hins : t.insert_row r with
      | none => rw [hins] at heq; exact absurd heq (by simp)
      | some t'' =>
        rw [hins] at heq
        injection heq with heq
        injection heq with heq1 _
        have hcap : rs.length < 1400 := by
          have hnr := ih.nr
          omega
        obtain ⟨t₀, ht₀, hInv'⟩ := insert_row_spec ih hcap (insert_row_idInRange hins)
        rw [hins] at ht₀
        injection ht₀ with ht₀
        rw [← heq1, ht₀]
        exact hInv'
  | @insert_full rs t r t' _ heq ih =>
    by_cases hfull : t.num_rows ≥ 1400
    · rw [executeInsert_full hfull] at heq
      injection heq with heq
      injection heq with heq1 _
      rw [← heq1]
      exact ih
    · rw [executeInsert_not_full hfull] at heq
      cases hins : t.insert_row r with
      | none => rw [hins] at heq; exact absurd heq (by simp)
      | some t'' =>
        rw [hins] at heq
        injection heq with heq
        injection heq with _ habs
        exact absurd habs (by simp)
  | @select rs t t' res _ heq ih =>
    unfold executeSelect execute_statement at heq
    cases hsel : Table.select_all t with
    | none => rw [hsel] at heq; exact absurd heq (by simp)
    | some p =>
      rw [hsel] at heq
      injection heq with heq
      injection heq with heq1 _
      have := select_all_frame ih hsel
      rw [← heq1, this]
      exact ih

/-- Running a batch of inserts with in-range ids from an invariant state:
every insert returns SUCCESS. -/
theorem runInserts_ok {rs₀ : List Row} {t : Table} (hInv : Inv rs₀ t)
    (rs : List Row) (hlen : rs₀.length + rs.length ≤ 1400)
    (hids : ∀ r ∈ rs, idInRange r) :
    ∃ t', runInserts t rs = some (t', List.replicate rs.length .SUCCESS) ∧
      Inv (rs₀ ++ rs) t' := by
  induction rs generalizing rs₀ t with
  | nil => exact ⟨t, rfl, by simpa using hInv⟩
  | cons r rest ih =>
    have hcap : rs₀.length < 1400 := by
      rw [List.length_cons] at hlen
      omega
    have hfull : ¬ t.num_rows ≥ 1400 := by
      rw [hInv.nr]
      omega
    obtain ⟨t1, hins, hInv1⟩ := insert_row_spec hInv hcap (hids r (List.mem_cons_self ..))
    have hexec : executeInsert t r = some (t1, .SUCCESS) := by
      rw [executeInsert_not_full hfull, hins]
      rfl
    obtain ⟨t', hrun, hInv'⟩ := ih hInv1
      (by rw [List.length_append, List.length_singleton]; rw [List.length_cons] at hlen; omega)
      (fun x hx => hids x (List.mem_cons_of_mem _ hx))
    refine ⟨t', ?_, ?_⟩
    · unfold runInserts
      rw [hexec]
      show (runInserts t1 rest).map
        (fun p : Table × List ExecuteResult => (p.1, ExecuteResult.SUCCESS :: p.2)) = _
      rw [hrun]
      rfl
    · rw [List.append_assoc, List.singleton_append] at hInv'
      exact hInv'

/-- Rows stored by the table decode successfully when the inserted rows'
truncated text fields strip to valid UTF-8. -/
def goodRow (r : Row) : Prop :=
  idInRange r ∧
  validUtf8 (rstripZeros (r.username.take Row.USERNAME_SIZE)) = true ∧
  validUtf8 (rstripZeros (r.email.take Row.EMAIL_SIZE)) = true

instance (r : Row) : Decidable (goodRow r) := by unfold goodRow; infer_instance

theorem select_all_good {rs : List Row} {t : Table} (hInv : Inv rs t)
    (hgood : ∀ r ∈ rs, goodRow r) :
    ∃ rows, Table.select_all t = some (t, rows) := by
  have hsome : (readRows t (List.range t.num_rows)).isSome := by
    apply readRows_isSome
    intro i hi
    have hi' : i < t.num_rows := List.mem_range.1 hi
    have hrs : i < rs.length := by rw [← hInv.nr]; exact hi'
    have hget : rs[i]? = some rs[i] := List.getElem?_eq_getElem hrs
    have hmem : rs[i] ∈ rs := List.getElem?_mem hget
    obtain ⟨hid, hu, he⟩ := hgood _ hmem
    unfold readRow
    rw [hInv.content i rs[i] hget]
    show (Row.deserialize (Row.serializeRaw rs[i])).isSome
    rw [deserialize_serializeRaw _ hid hu he]
    rfl
  obtain ⟨rows, hrows⟩ := Option.isSome_iff_exists.1 hsome
  refine ⟨rows, ?_⟩
  rw [select_all_spec hInv, hrows]
  rfl

/-- Claim C1: for every record whose id is in `[0, 2^32)` (`4294967296 =
2^32`) and whose username and email are UTF-8 byte strings of at most
`USERNAME_SIZE = 32` and `EMAIL_SIZE = 255` bytes with no embedded zero
bytes, `Row.deserialize (Row.serialize r)` yields a record equal to `r`
(same id, username, email). -/
theorem claim_C1 (r : Row) (hid : 0 ≤ r.id) (hid2 : r.id < 4294967296)
    (huv : validUtf8 r.username = true) (hev : validUtf8 r.email = true)
    (hul : r.username.length ≤ Row.USERNAME_SIZE)
    (hel : r.email.length ≤ Row.EMAIL_SIZE)
    (huz : ∀ b ∈ r.username, b ≠ 0) (hez : ∀ b ∈ r.email, b ≠ 0) :
    (Row.serialize r).bind Row.deserialize = some r := by
  rw [Row.serialize_eq_raw r ⟨hid, hid2⟩]
  show Row.deserialize (Row.serializeRaw r) = some r
  exact deserialize_serializeRaw_roundtrip r ⟨hid, hid2⟩ hul hel huz hez huv hev

/-- Witness for C1: the round trip evaluated at a concrete record. -/
theorem claim_C1_witness :
    (Row.serialize ⟨7, [104, 105], [97, 64, 98]⟩).bind Row.deserialize =
      some ⟨7, [104, 105], [97, 64, 98]⟩ :=
  claim_C1 ⟨7, [104, 105], [97, 64, 98]⟩ (by decide) (by decide) (by decide)
    (by decide) (by decide) (by decide) (by decide) (by decide)

/-- Claim C7: for every record with an unsigned 32-bit id, the encoded form
is exactly `ROW_SIZE = 291` bytes regardless of text lengths; each text
field is zero-padded on the right to its width when short, and truncated to
the first `USERNAME_SIZE`/`EMAIL_SIZE` bytes when long. -/
theorem claim_C7 (r : Row) (h : 0 ≤ r.id) (h2 : r.id < 4294967296) :
    ∃ b, Row.serialize r = some b ∧ b.length = Row.ROW_SIZE ∧
      listSlice b Row.USERNAME_OFFSET Row.USERNAME_SIZE =
        Row.padTrunc r.username Row.USERNAME_SIZE ∧
      listSlice b Row.EMAIL_OFFSET Row.EMAIL_SIZE =
        Row.padTrunc r.email Row.EMAIL_SIZE ∧
      (listSlice b Row.USERNAME_OFFSET Row.USERNAME_SIZE).length = Row.USERNAME_SIZE ∧
      (listSlice b Row.EMAIL_OFFSET Row.EMAIL_SIZE).length = Row.EMAIL_SIZE ∧
      (Row.USERNAME_SIZE ≤ r.username.length →
        listSlice b Row.USERNAME_OFFSET Row.USERNAME_SIZE =
          r.username.take Row.USERNAME_SIZE) ∧
      (r.username.length ≤ Row.USERNAME_SIZE →
        listSlice b Row.USERNAME_OFFSET Row.USERNAME_SIZE =
          r.username ++ List.replicate (Row.USERNAME_SIZE - r.username.length) 0) ∧
      (Row.EMAIL_SIZE ≤ r.email.length →
        listSlice b Row.EMAIL_OFFSET Row.EMAIL_SIZE = r.email.take Row.EMAIL_SIZE) ∧
      (r.email.length ≤ Row.EMAIL_SIZE →
        listSlice b Row.EMAIL_OFFSET Row.EMAIL_SIZE =
          r.email ++ List.replicate (Row.EMAIL_SIZE - r.email.length) 0) := by
  refine ⟨Row.serializeRaw r, Row.serialize_eq_raw r ⟨h, h2⟩, Row.length_serializeRaw r,
    Row.listSlice_serializeRaw_username r, Row.listSlice_serializeRaw_email r,
    ?_, ?_, ?_, ?_, ?_, ?_⟩
  · rw [Row.listSlice_serializeRaw_username r, Row.length_padTrunc]
  · rw [Row.listSlice_serializeRaw_email r, Row.length_padTrunc]
  · intro hle
    rw [Row.listSlice_serializeRaw_username r, Row.padTrunc_of_ge _ _ hle]
  · intro hle
    rw [Row.listSlice_serializeRaw_username r, Row.padTrunc_of_le _ _ hle]
  · intro hle
    rw [Row.listSlice_serializeRaw_email r, Row.padTrunc_of_ge _ _ hle]
  · intro hle
    rw [Row.listSlice_serializeRaw_email r, Row.padTrunc_of_le _ _ hle]

/-- A concrete record whose username encodes to 40 bytes. -/
def rowU40 : Row := ⟨5, List.replicate 40 97, [101]⟩

/-- Witness for C7 at a record with a 40-byte username. -/
theorem claim_C7_witness :
    ∃ b, Row.serialize rowU40 = some b ∧ b.length = Row.ROW_SIZE ∧
      listSlice b Row.USERNAME_OFFSET Row.USERNAME_SIZE =
        Row.padTrunc rowU40.username Row.USERNAME_SIZE ∧
      listSlice b Row.EMAIL_OFFSET Row.EMAIL_SIZE =
        Row.padTrunc rowU40.email Row.EMAIL_SIZE ∧
      (listSlice b Row.USERNAME_OFFSET Row.USERNAME_SIZE).length = Row.USERNAME_SIZE ∧
      (listSlice b Row.EMAIL_OFFSET Row.EMAIL_SIZE).length = Row.EMAIL_SIZE ∧
      (Row.USERNAME_SIZE ≤ rowU40.username.length →
        listSlice b Row.USERNAME_OFFSET Row.USERNAME_SIZE =
          rowU40.username.take Row.USERNAME_SIZE) ∧
      (rowU40.username.length ≤ Row.USERNAME_SIZE →
        listSlice b Row.USERNAME_OFFSET Row.USERNAME_SIZE =
          rowU40.username ++ List.replicate (Row.USERNAME_SIZE - rowU40.username.length) 0) ∧
      (Row.EMAIL_SIZE ≤ rowU40.email.length →
        listSlice b Row.EMAIL_OFFSET Row.EMAIL_SIZE = rowU40.email.take Row.EMAIL_SIZE) ∧
      (rowU40.email.length ≤ Row.EMAIL_SIZE →
        listSlice b Row.EMAIL_OFFSET Row.EMAIL_SIZE =
          rowU40.email ++ List.replicate (Row.EMAIL_SIZE - rowU40.email.length) 0) :=
  claim_C7 rowU40 (by decide) (by decide)

/-- Claim C9: `Row.serialize` returns normally (with a `ROW_SIZE = 291` byte
buffer) exactly when the id lies in `[0, 2^32)`; for a negative id or an id
`≥ 2^32` the 4-byte packing raises and no buffer is produced. -/
theorem claim_C9 :
    (∀ r : Row, (∃ b, Row.serialize r = some b ∧ b.length = Row.ROW_SIZE) ↔
      0 ≤ r.id ∧ r.id < 4294967296) ∧
    (∀ r : Row, (r.id < 0 ∨ 4294967296 ≤ r.id) → Row.serialize r = none) := by
  constructor
  · intro r
    constructor
    · rintro ⟨b, hb, -⟩
      by_contra hn
      rw [Row.serialize_eq_none r hn] at hb
      exact absurd hb (by simp)
    · intro h
      exact ⟨_, Row.serialize_eq_raw r h, Row.length_serializeRaw r⟩
  · intro r h
    apply Row.serialize_eq_none
    unfold idInRange
    omega

/-- Witness for C9: both directions at concrete records. -/
theorem claim_C9_witness :
    (∃ b, Row.serialize ⟨3, [97], [98]⟩ = some b ∧ b.length = Row.ROW_SIZE) ∧
      Row.serialize ⟨-1, [], []⟩ = none :=
  ⟨(claim_C9.1 ⟨3, [97], [98]⟩).2 (by decide), claim_C9.2 ⟨-1, [], []⟩ (by decide)⟩

/-- A successful `serialize` output is `serializeRaw`, and certifies the id
precondition. -/
theorem serialize_some_eq {r : Row} {b : List Nat} (hb : Row.serialize r = some b) :
    b = Row.serializeRaw r ∧ idInRange r := by
  by_cases h : idInRange r
  · rw [Row.serialize_eq_raw r h] at hb
    injection hb with hb
    exact ⟨hb.symm, h⟩
  · rw [Row.serialize_eq_none r h] at hb
    exact absurd hb (by simp)

/-- Under the invariant, `row_slot` returns normally on every in-capacity
row index. -/
theorem row_slot_total {rs : List Row} {t : Table} (hInv : Inv rs t) (i : Nat)
    (hi : i < 1400) : Table.row_slot t i ≠ none := by
  have hplen : t.pages.length = 100 := hInv.plen
  have hp : i / 14 < t.pages.length := by omega
  cases hsl : t.pages[i / 14] with
  | none =>
    rw [row_slot_fresh t i (by rw [List.getElem?_eq_getElem hp, hsl])]
    exact fun hc => Option.noConfusion hc
  | some pg =>
    rw [row_slot_present t i pg (by rw [List.getElem?_eq_getElem hp, hsl])]
    exact fun hc => Option.noConfusion hc

/-- Under the invariant, an INSERT through `execute_statement` always
returns a result value for a packable id. -/
theorem executeInsert_total {rs : List Row} {t : Table} (hInv : Inv rs t)
    {r : Row} (hr : idInRange r) :
    ∃ t' res, executeInsert t r = some (t', res) := by
  by_cases hfull : t.num_rows ≥ 1400
  · exact ⟨t, .TABLE_FULL, executeInsert_full hfull⟩
  · have hcap : rs.length < 1400 := by
      have hnr := hInv.nr
      omega
    obtain ⟨t', hins, -⟩ := insert_row_spec hInv hcap hr
    refine ⟨t', .SUCCESS, ?_⟩
    rw [executeInsert_not_full hfull, hins]
    rfl

/-- Claim C2: starting from the empty table, inserting any batch of at most
`TABLE_MAX_ROWS = 1400` records (with packable ids) returns SUCCESS for
every insert; and an insert attempted on any table with `num_rows =
TABLE_MAX_ROWS` returns TABLE_FULL with the table object unchanged (no
`num_rows`, page-content or page-slot mutation). -/
theorem claim_C2 :
    (∀ rs : List Row, rs.length ≤ Table.TABLE_MAX_ROWS → (∀ r ∈ rs, idInRange r) →
      ∃ t', runInserts Table.empty rs =
          some (t', List.replicate rs.length .SUCCESS) ∧
        t'.num_rows = rs.length) ∧
    (∀ (t : Table) (r : Row), t.num_rows = Table.TABLE_MAX_ROWS →
      executeInsert t r = some (t, .TABLE_FULL)) := by
  constructor
  · intro rs hlen hids
    obtain ⟨t', hrun, hInv⟩ := runInserts_ok inv_empty rs (by simpa using hlen) hids
    refine ⟨t', hrun, ?_⟩
    rw [hInv.nr]
    simp
  · intro t r h
    exact executeInsert_full (by have h' : t.num_rows = 1400 := h; omega)

/-- Witness for C2: a one-record batch succeeds, and a full table rejects
an insert unchanged. -/
theorem claim_C2_witness :
    (∃ t', runInserts Table.empty [⟨1, [97], [98]⟩] =
        some (t', List.replicate 1 .SUCCESS) ∧ t'.num_rows = 1) ∧
    executeInsert ⟨1400, List.replicate 100 none⟩ ⟨1, [], []⟩ =
      some (⟨1400, List.replicate 100 none⟩, .TABLE_FULL) := by
  refine ⟨?_, claim_C2.2 ⟨1400, List.replicate 100 none⟩ ⟨1, [], []⟩ rfl⟩
  have h := claim_C2.1 [⟨1, [97], [98]⟩] (by decide) (by decide)
  simpa using h

/-- Claim C4: in every reachable table state, `num_rows ≤ TABLE_MAX_ROWS`,
and for every logical index `i < num_rows` the page slot `i / ROWS_PER_PAGE`
holds a `PAGE_SIZE`-byte buffer containing the `ROW_SIZE = 291` encoded
bytes of the row inserted at index `i`, at byte offset
`(i % ROWS_PER_PAGE) * ROW_SIZE`. -/
theorem claim_C4 {rs : List Row} {t : Table} (h : Reaches rs t) :
    t.num_rows ≤ Table.TABLE_MAX_ROWS ∧
    ∀ i : Nat, i < t.num_rows →
      ∃ pg, t.pages[i / Table.ROWS_PER_PAGE]? = some (some pg) ∧
        pg.length = PAGE_SIZE ∧
        ∃ r, rs[i]? = some r ∧
          listSlice pg (i % Table.ROWS_PER_PAGE * Row.ROW_SIZE) Row.ROW_SIZE =
            Row.serializeRaw r ∧
          (Row.serializeRaw r).length = Row.ROW_SIZE := by
  have hInv := reaches_inv h
  constructor
  · show t.num_rows ≤ 1400
    rw [hInv.nr]
    exact hInv.cap
  · intro i hi
    have hrs : i < rs.length := by rw [← hInv.nr]; exact hi
    have hget : rs[i]? = some rs[i] := List.getElem?_eq_getElem hrs
    obtain ⟨pg, hpg, hsl⟩ := slotBytes_some (hInv.content i rs[i] hget)
    obtain ⟨pg', hpg', hlen'⟩ := hInv.alloc (i / 14)
      (lt_of_le_of_lt (Nat.div_mul_le_self i _) hi)
    rw [hpg] at hpg'
    injection hpg' with hpg'
    injection hpg' with hpg'
    refine ⟨pg, ?_, ?_, rs[i], hget, hsl.symm, Row.length_serializeRaw _⟩
    · exact hpg
    · rw [hpg']
      exact hlen'

/-- Witness for C4 at the initial state. -/
theorem claim_C4_witness :
    Table.empty.num_rows ≤ Table.TABLE_MAX_ROWS ∧
    ∀ i : Nat, i < Table.empty.num_rows →
      ∃ pg, Table.empty.pages[i / Table.ROWS_PER_PAGE]? = some (some pg) ∧
        pg.length = PAGE_SIZE ∧
        ∃ r, ([] : List Row)[i]? = some r ∧
          listSlice pg (i % Table.ROWS_PER_PAGE * Row.ROW_SIZE) Row.ROW_SIZE =
            Row.serializeRaw r ∧
          (Row.serializeRaw r).length = Row.ROW_SIZE :=
  claim_C4 Reaches.empty

/-- Claim C6: in every reachable state, `row_slot` maps row index
`i < TABLE_MAX_ROWS` to page `i / ROWS_PER_PAGE` and byte offset
`(i % ROWS_PER_PAGE) * ROW_SIZE` (in particular `0 ↦ (0, 0)`,
`13 ↦ (0, 3783)`, `14 ↦ (1, 0)`), and re-addressing after a call returns
the same address with no further allocation. -/
theorem claim_C6 :
    (∀ (rs : List Row) (t : Table), Reaches rs t → ∀ i : Nat,
      i < Table.TABLE_MAX_ROWS →
      ∃ t', Table.row_slot t i = some (t', i / Table.ROWS_PER_PAGE,
        i % Table.ROWS_PER_PAGE * Row.ROW_SIZE)) ∧
    (∀ (t t' : Table) (i pn off : Nat), Table.row_slot t i = some (t', pn, off) →
      Table.row_slot t' i = some (t', pn, off)) ∧
    (∃ tA, Table.row_slot Table.empty 0 = some (tA, 0, 0)) ∧
    (∃ tB, Table.row_slot Table.empty 13 = some (tB, 0, 3783)) ∧
    (∃ tC, Table.row_slot Table.empty 14 = some (tC, 1, 0)) := by
  refine ⟨?_, ?_, ?_, ?_, ?_⟩
  · intro rs t h i hi
    have hInv := reaches_inv h
    have hi' : i < 1400 := hi
    have hplen : t.pages.length = 100 := hInv.plen
    have hp : i / 14 < t.pages.length := by omega
    cases hsl : t.pages[i / 14] with
    | none => exact ⟨_, row_slot_fresh t i (by rw [List.getElem?_eq_getElem hp, hsl])⟩
    | some pg => exact ⟨t, row_slot_present t i pg (by rw [List.getElem?_eq_getElem hp, hsl])⟩
  · intro t t' i pn off h
    cases hsl : t.pages[i / 14]? with
    | none => rw [row_slot_oob t i hsl] at h; exact absurd h (by simp)
    | some slot =>
      cases slot with
      | none =>
        rw [row_slot_fresh t i hsl] at h
        injection h with h
        injection h with h1 h2
        have hlt : i / 14 < t.pages.length := (List.getElem?_eq_some.1 hsl).1
        have hfresh : t'.pages[i / 14]? = some (some (List.replicate 4096 0)) := by
          rw [← h1]
          exact List.getElem?_set_self hlt
        rw [row_slot_present t' i _ hfresh]
        rw [← h1, ← h2]
      | some pg =>
        rw [row_slot_present t i pg hsl] at h
        injection h with h
        injection h with h1 h2
        rw [← h1, ← h2, row_slot_present t i pg hsl]
  · exact ⟨_, row_slot_fresh Table.empty 0 (by decide)⟩
  · exact ⟨_, row_slot_fresh Table.empty 13 (by decide)⟩
  · exact ⟨_, row_slot_fresh Table.empty 14 (by decide)⟩

/-- Witness for C6: the addressing part applied at the initial state. -/
theorem claim_C6_witness :
    ∃ t', Table.row_slot Table.empty 5 = some (t', 5 / Table.ROWS_PER_PAGE,
      5 % Table.ROWS_PER_PAGE * Row.ROW_SIZE) :=
  claim_C6.1 [] Table.empty Reaches.empty 5 (by decide)

/-- Claim C10: in every reachable state, `row_slot` raises (returns `none`,
an IndexError) for every row index `i ≥ TABLE_MAX_ROWS = 1400` (where
`i / ROWS_PER_PAGE ≥ 100`) and returns normally for every `i < 1400`; a
bare `insert_row` on a full table would raise, and `execute_statement`'s
capacity guard is what keeps INSERT from ever raising for packable ids. -/
theorem claim_C10 {rs : List Row} {t : Table} (h : Reaches rs t) :
    (∀ i : Nat, Table.TABLE_MAX_ROWS ≤ i → Table.row_slot t i = none) ∧
    (∀ i : Nat, i < Table.TABLE_MAX_ROWS → Table.row_slot t i ≠ none) ∧
    (Table.TABLE_MAX_ROWS ≤ t.num_rows → ∀ r : Row, Table.insert_row t r = none) ∧
    (∀ r : Row, idInRange r → ∃ t' res, executeInsert t r = some (t', res)) := by
  have hInv := reaches_inv h
  have hplen : t.pages.length = 100 := hInv.plen
  refine ⟨?_, ?_, ?_, ?_⟩
  · intro i hi
    have hi' : (1400 : Nat) ≤ i := hi
    apply row_slot_oob
    apply List.getElem?_eq_none
    omega
  · intro i hi
    exact row_slot_total hInv i hi
  · intro hfull r
    have hcap : rs.length ≤ 1400 := hInv.cap
    have hnr : t.num_rows = rs.length := hInv.nr
    have hfull' : (1400 : Nat) ≤ t.num_rows := hfull
    have heq : t.num_rows = 1400 := by omega
    unfold Table.insert_row
    rw [row_slot_oob t t.num_rows (by
      apply List.getElem?_eq_none
      omega)]
  · intro r hr
    exact executeInsert_total hInv hr

/-- Witness for C10 at the initial state and a concrete record. -/
theorem claim_C10_witness :
    ∃ t' res, executeInsert Table.empty ⟨1, [97], [98]⟩ = some (t', res) :=
  (claim_C10 Reaches.empty).2.2.2 ⟨1, [97], [98]⟩ (by decide)

/-- Claim C3: a successful append increments `num_rows` by exactly 1 and the
new record is the one a completing subsequent scan returns (decoded) at
logical index `num_rows_before`; a scan never changes the table, a
TABLE_FULL append never changes the table, and appending ids 1, 2, 3 then
scanning yields them in exactly that insertion order. -/
theorem claim_C3 :
    (∀ (rs : List Row) (t : Table) (r : Row) (t' : Table), Reaches rs t →
      executeInsert t r = some (t', .SUCCESS) →
      t'.num_rows = t.num_rows + 1 ∧
      ∀ (t2 : Table) (rows : List Row), Table.select_all t' = some (t2, rows) →
        ∀ b : List Nat, Row.serialize r = some b →
          rows[t.num_rows]? = Row.deserialize b) ∧
    (∀ (rs : List Row) (t t' : Table) (res : ExecuteResult), Reaches rs t →
      executeSelect t = some (t', res) → t' = t) ∧
    (∀ (rs : List Row) (t : Table) (r : Row) (t' : Table), Reaches rs t →
      executeInsert t r = some (t', .TABLE_FULL) → t' = t) ∧
    (runInserts Table.empty
        [⟨1, [97], [120]⟩, ⟨2, [98], [120]⟩, ⟨3, [99], [120]⟩]).bind
      (fun p => (Table.select_all p.1).map fun q => (p.2, q.2)) =
      some ([.SUCCESS, .SUCCESS, .SUCCESS],
        [⟨1, [97], [120]⟩, ⟨2, [98], [120]⟩, ⟨3, [99], [120]⟩]) := by
  refine ⟨?_, ?_, ?_, by decide⟩
  · intro rs t r t' hre heq
    have hre' : Reaches (rs ++ [r]) t' := .insert_ok hre heq
    have hInv := reaches_inv hre
    have hInv' := reaches_inv hre'
    have hnr : t.num_rows = rs.length := hInv.nr
    have hnr' : t'.num_rows = rs.length + 1 := by
      rw [hInv'.nr, List.length_append, List.length_singleton]
    constructor
    · omega
    · intro t2 rows hsel b hb
      obtain ⟨hbe, hbr⟩ := serialize_some_eq hb
      rw [select_all_spec hInv'] at hsel
      cases hread : readRows t' (List.range t'.num_rows) with
      | none => rw [hread] at hsel; exact absurd hsel (by simp)
      | some rows0 =>
        rw [hread] at hsel
        injection hsel with hsel
        injection hsel with hsel1 hsel2
        subst hsel2
        have hidx : (List.range t'.num_rows)[t.num_rows]? = some t.num_rows :=
          List.getElem?_range (by omega)
        rw [readRows_get hread t.num_rows t.num_rows hidx]
        have hcont : slotBytes t' t.num_rows = some (Row.serializeRaw r) := by
          apply hInv'.content
          rw [hnr, List.getElem?_concat_length]
        unfold readRow
        rw [hcont, hbe]
        rfl
  · intro rs t t' res hre heq
    have hInv := reaches_inv hre
    unfold executeSelect execute_statement at heq
    dsimp only at heq
    cases hsel : Table.select_all t with
    | none => rw [hsel] at heq; exact absurd heq (by simp)
    | some p =>
      rw [hsel] at heq
      injection heq with heq
      injection heq with heq1 _
      rw [← heq1]
      exact select_all_frame hInv hsel
  · intro rs t r t' hre heq
    by_cases hfull : t.num_rows ≥ 1400
    · rw [executeInsert_full hfull] at heq
      injection heq with heq
      injection heq with heq1 _
      exact heq1.symm
    · rw [executeInsert_not_full hfull] at heq
      cases hins : t.insert_row r with
      | none => rw [hins] at heq; exact absurd heq (by simp)
      | some t'' =>
        rw [hins] at heq
        injection heq with heq
        injection heq with _ habs
        exact absurd habs (by simp)

/-- A concrete single record appended to the empty table in witnesses. -/
def rowDemo : Row := ⟨1, [97], [98]⟩

/-- Witness for C3: the append part applied to the first insert into the
empty table. -/
theorem claim_C3_witness :
    ∃ t', executeInsert Table.empty rowDemo = some (t', .SUCCESS) ∧
      t'.num_rows = Table.empty.num_rows + 1 ∧
      ∀ (t2 : Table) (rows : List Row),
        Table.select_all t' = some (t2, rows) →
        ∀ b : List Nat, Row.serialize rowDemo = some b →
          rows[Table.empty.num_rows]? = Row.deserialize b := by
  obtain ⟨t1, hins, -⟩ := insert_row_spec inv_empty (by decide) (r := rowDemo) (by decide)
  have hexec : executeInsert Table.empty rowDemo = some (t1, .SUCCESS) := by
    rw [executeInsert_not_full (by decide), hins]
    rfl
  exact ⟨t1, hexec, claim_C3.1 [] Table.empty rowDemo t1 Reaches.empty hexec⟩

/-- Claim C8: a completing scan of a reachable state leaves the table
unchanged (no `num_rows` change, no page change, no allocation) and returns
`num_rows` records; on the empty table it returns the empty sequence with
every page slot still absent; after one append exactly one page slot is
non-absent. -/
theorem claim_C8 :
    (∀ (rs : List Row) (t t2 : Table) (rows : List Row), Reaches rs t →
      Table.select_all t = some (t2, rows) →
      t2 = t ∧ rows.length = t.num_rows) ∧
    (Table.select_all Table.empty = some (Table.empty, []) ∧
      ∀ (p : Nat) (pg : List Nat), Table.empty.pages[p]? = some (some pg) → False) ∧
    (∀ (r : Row) (t' : Table), executeInsert Table.empty r = some (t', .SUCCESS) →
      (∃ pg, t'.pages[0]? = some (some pg)) ∧
      (∀ (p : Nat) (pg : List Nat), t'.pages[p]? = some (some pg) → p = 0)) := by
  refine ⟨?_, ⟨rfl, ?_⟩, ?_⟩
  · intro rs t t2 rows hre hsel
    have hInv := reaches_inv hre
    rw [select_all_spec hInv] at hsel
    cases hread : readRows t (List.range t.num_rows) with
    | none => rw [hread] at hsel; exact absurd hsel (by simp)
    | some rows0 =>
      rw [hread] at hsel
      injection hsel with hsel
      injection hsel with hsel1 hsel2
      subst hsel2
      refine ⟨hsel1.symm, ?_⟩
      rw [readRows_length hread, List.length_range]
  · intro p pg hp
    have hrep : Table.empty.pages[p]? = (List.replicate 100 (none : Option (List Nat)))[p]? := rfl
    rw [hrep, List.getElem?_replicate] at hp
    rcases Nat.lt_or_ge p 100 with h1 | h1
    · rw [if_pos h1] at hp
      injection hp with hp
      exact Option.noConfusion hp
    · rw [if_neg (by omega)] at hp
      exact Option.noConfusion hp
  · intro r t' heq
    have hre' : Reaches [r] t' := .insert_ok .empty (by simpa using heq)
    have hInv' := reaches_inv hre'
    have hnr' : t'.num_rows = 1 := hInv'.nr
    constructor
    · obtain ⟨pg, hpg, -⟩ := hInv'.alloc 0 (by omega)
      exact ⟨pg, hpg⟩
    · intro p pg hp
      by_contra hne
      rcases Nat.lt_or_ge p 100 with h1 | h1
      · have := hInv'.unalloc p h1 (by omega)
        rw [this] at hp
        injection hp with hp
        exact Option.noConfusion hp
      · have hlen : t'.pages.length = 100 := hInv'.plen
        have : t'.pages[p]? = none := List.getElem?_eq_none (by omega)
        rw [this] at hp
        exact Option.noConfusion hp

/-- Witness for C8: the lazy-allocation part at the concrete first append. -/
theorem claim_C8_witness :
    ∃ t', executeInsert Table.empty rowDemo = some (t', .SUCCESS) ∧
      (∃ pg, t'.pages[0]? = some (some pg)) ∧
      (∀ (p : Nat) (pg : List Nat), t'.pages[p]? = some (some pg) → p = 0) := by
  obtain ⟨t1, hins, -⟩ := insert_row_spec inv_empty (by decide) (r := rowDemo) (by decide)
  have hexec : executeInsert Table.empty rowDemo = some (t1, .SUCCESS) := by
    rw [executeInsert_not_full (by decide), hins]
    rfl
  exact ⟨t1, hexec, claim_C8.2.2 rowDemo t1 hexec⟩

/-- Claim C5 is false as stated: `Row.serialize` raises (no value is
returned) on a record whose id is `2^32`, and `Table.select_all` raises on a
reachable state holding a row whose 33-byte username encoding was truncated
mid-character (`0xC2 0xA2` split at byte 32), so not every failure is
returned as a value. -/
theorem claim_C5_counterexample :
    Row.serialize ⟨4294967296, [], []⟩ = none ∧
    (executeInsert Table.empty ⟨1, List.replicate 31 97 ++ [194, 162], []⟩).map
      (fun p => (p.2, p.1.num_rows)) = some (.SUCCESS, 1) ∧
    (executeInsert Table.empty ⟨1, List.replicate 31 97 ++ [194, 162], []⟩).bind
      (fun p => Table.select_all p.1) = none :=
  ⟨by decide, by decide, by decide⟩

/-- Claim C5 (amended): restricted to records whose id is in `[0, 2^32)` and
whose truncated field encodings strip to valid UTF-8 (`goodRow`), and to
states reachable using only such records, every core operation returns a
value rather than raising: encode returns a buffer, INSERT through
`execute_statement` returns SUCCESS or TABLE_FULL, a full scan returns the
row sequence, and `row_slot` returns an address for every in-capacity
index. -/
theorem claim_C5_amended {rs : List Row} {t : Table} (h : Reaches rs t)
    (hgood : ∀ r ∈ rs, goodRow r) :
    (∀ r : Row, goodRow r → ∃ b, Row.serialize r = some b) ∧
    (∀ r : Row, goodRow r → ∃ t' res, executeInsert t r = some (t', res)) ∧
    (∃ rows, Table.select_all t = some (t, rows)) ∧
    (∀ i : Nat, i < Table.TABLE_MAX_ROWS → Table.row_slot t i ≠ none) := by
  have hInv := reaches_inv h
  refine ⟨?_, ?_, select_all_good hInv hgood, ?_⟩
  · intro r hr
    exact ⟨_, Row.serialize_eq_raw r hr.1⟩
  · intro r hr
    exact executeInsert_total hInv hr.1
  · intro i hi
    exact row_slot_total hInv i hi

/-- Witness for the amended C5 at the initial state. -/
theorem claim_C5_amended_witness :
    (∀ r : Row, goodRow r → ∃ b, Row.serialize r = some b) ∧
    (∀ r : Row, goodRow r →
      ∃ t' res, executeInsert Table.empty r = some (t', res)) ∧
    (∃ rows, Table.select_all Table.empty = some (Table.empty, rows)) ∧
    (∀ i : Nat, i < Table.TABLE_MAX_ROWS → Table.row_slot Table.empty i ≠ none) :=
  claim_C5_amended Reaches.empty (by simp)

end PySqlite
